import Mathlib

/-!
# Knox Vault / Dutch Auction — verification of the specification against the code

Shallow embedding of the Knox weekly-option vault and its descending-price
auction (Solidity, `sherlock-audit/2022-09-knox`).  Machine integers are
embedded as `ℕ` (`uint256`, `uint64`) and `ℤ` (the signed ABDK 64.64 type
`int128`); 64.64 fixed-point operations carry the explicit `2 ^ 64` scaling
and floor division of the ABDK library.  Calls that revert are embedded as
`Option`-valued functions returning `none`; checked `uint256` subtraction is
embedded explicitly where it can underflow.  External collaborators (the
Premia pool, the pricer, token balances, `block.timestamp`) are passed as
explicit parameters.
-/

set_option maxRecDepth 8192

namespace Knox

/-- `2 ^ 64`, the scaling factor of the ABDK signed 64.64 fixed-point format. -/
def SCALE : ℕ := 2 ^ 64

/-- `type(int128).max = 2 ^ 127 - 1`, the sentinel stored into
`lastPrice64x64` when an auction is cancelled. -/
def INT128_MAX : ℤ := 2 ^ 127 - 1

/-- ABDK `mulu`: multiply a (non-negative) 64.64 fixed-point number by an
unsigned integer, flooring the result.  The library reverts on negative `x`;
every call site in the contracts passes a validated non-negative price, and
theorems that depend on the value carry the corresponding hypothesis. -/
def mulu (x : ℤ) (y : ℕ) : ℕ := ((x * y) / (2 ^ 64 : ℤ)).toNat

/-- ABDK `divu`: divide two unsigned integers returning a 64.64 fixed-point
number (floored).  The library reverts when `y = 0`; call sites below are
guarded by hypotheses `0 < y`. -/
def divu (x y : ℕ) : ℤ := ((x * 2 ^ 64) / y : ℕ)


/-! ## Order book

`OrderBook.sol` keeps a price-sorted doubly-linked index of orders.  The
book is embedded as the list of live orders in head→tail traversal order; an
order holds the fields of `OrderBook.Data`.  Addresses are embedded as `ℕ`
(`0` is the null address). -/

/-- One order of the order book (`OrderBook.Data`). -/
structure Order where
  id : ℕ
  price64x64 : ℤ
  size : ℕ
  buyer : ℕ
  deriving Repr, DecidableEq

/-- Modelled from the spec: `OrderBook._insert` is missing from the source
tree (only its tests are present); the spec says a new order is spliced in
"at the first position whose successor has strictly lower price", i.e. after
the last node with price ≥ the new price, preserving FIFO among equal
prices. -/
def insertOrder (o : Order) : List Order → List Order
  | [] => [o]
  | h :: t => if o.price64x64 ≤ h.price64x64 then h :: insertOrder o t else o :: h :: t

/-- `OrderBook._remove`: unlink the node with the given id. -/
def removeOrder (id : ℕ) (book : List Order) : List Order :=
  book.filter (fun o => o.id ≠ id)

/-! ## Auction state (`AuctionStorage.sol`) -/

/-- `AuctionStorage.Status`. -/
inductive Status where
  | UNINITIALIZED | INITIALIZED | FINALIZED | PROCESSED | CANCELLED
  deriving Repr, DecidableEq

/-- `AuctionStorage.Auction`: the per-epoch auction record. -/
structure Auction where
  status : Status
  expiry : ℕ
  strike64x64 : ℤ
  maxPrice64x64 : ℤ
  minPrice64x64 : ℤ
  lastPrice64x64 : ℤ
  startTime : ℕ
  endTime : ℕ
  processedTime : ℕ
  totalContracts : ℕ
  totalContractsSold : ℕ
  totalPremiums : ℕ
  longTokenId : ℕ
  deriving Repr, DecidableEq

/-- The all-zero auction record an epoch starts with. -/
def Auction.init : Auction :=
  ⟨.UNINITIALIZED, 0, 0, 0, 0, 0, 0, 0, 0, 0, 0, 0, 0⟩

/-- `AuctionInternal._priceCurve64x64`: the descending linear price curve.
ABDK `sub`/`mul` on in-range values is exact integer arithmetic with a floor
by `2 ^ 64` after the product. -/
def priceCurve64x64 (a : Auction) (now : ℕ) : ℤ :=
  if now ≤ a.startTime then a.maxPrice64x64
  else
    let elapsed := now - a.startTime
    let timeRemaining64x64 := divu elapsed (a.endTime - a.startTime)
    a.maxPrice64x64 -
      Int.fdiv (timeRemaining64x64 * (a.maxPrice64x64 - a.minPrice64x64)) (2 ^ 64)

/-- `AuctionInternal._clearingPrice64x64`: the stored last price once the
auction is finalized, processed or cancelled, otherwise the price curve. -/
def clearingPrice64x64 (a : Auction) (now : ℕ) : ℤ :=
  if a.status = .FINALIZED ∨ a.status = .PROCESSED ∨ a.status = .CANCELLED then
    a.lastPrice64x64
  else priceCurve64x64 a now

/-- `AuctionInternal._cancel`: cancellation side-effects. -/
def cancelAuction (a : Auction) : Auction :=
  { a with lastPrice64x64 := INT128_MAX, status := .CANCELLED, totalPremiums := 0 }

/-! ## The order-processing loop (`AuctionInternal._processOrders`) -/

/-- The loop body of `_processOrders`: traverse the book from the head,
breaking at the first order priced below the clearing price; auto-finalize
(result flag `true`) as soon as the accumulated size together with the
current order reaches `totalContracts`.  Returns
`(totalContractsSold, lastPrice64x64, reached100%)`. -/
def processOrdersLoop (clearing : ℤ) (totalContracts : ℕ) :
    List Order → ℕ → ℤ → ℕ × ℤ × Bool
  | [], sold, last => (sold, last, false)
  | o :: rest, sold, last =>
    if o.price64x64 < clearing then (sold, last, false)
    else if totalContracts ≤ sold + o.size then (totalContracts, o.price64x64, true)
    else processOrdersLoop clearing totalContracts rest (sold + o.size) o.price64x64

/-- `AuctionInternal._getTotalContracts`: the stored value, or — while it is
still zero — the vault's total collateral converted to contracts at the
strike (the external call `Vault.totalCollateral()` is the parameter
`totalCollateral`; the conversion is `fromCollateralToContracts` below). -/
def getTotalContracts (a : Auction) (derivedContracts : ℕ) : ℕ :=
  if a.totalContracts = 0 then derivedContracts else a.totalContracts

/-- `AuctionInternal._processOrders`: fixes `totalContracts` on the first
bid, runs the traversal, and stores the resulting last price and total sold.
Returns the updated auction and the 100%-utilization flag. -/
def processOrders (a : Auction) (book : List Order) (derivedContracts : ℕ)
    (now : ℕ) : Auction × Bool :=
  let T := getTotalContracts a derivedContracts
  let a1 := { a with totalContracts := T }
  let r := processOrdersLoop (clearingPrice64x64 a1 now) T book 0 0
  ({ a1 with totalContractsSold := r.1, lastPrice64x64 := r.2.1 }, r.2.2)

/-- `AuctionInternal._finalizeAuction`: run the order-processing step and
transition to `FINALIZED` when it reports 100% utilization or the end time
has passed. -/
def finalizeAuctionInternal (a : Auction) (book : List Order)
    (derivedContracts : ℕ) (now : ℕ) : Auction :=
  let r := processOrders a book derivedContracts now
  if r.2 = true ∨ a.endTime < now then { r.1 with status := .FINALIZED } else r.1

/-! ## OptionMath conversions

`OptionMath.sol` is not under the source tree (only its test harness
`TestOptionMath` and its callers are), so the conversions are modelled from
the spec. -/

/-- Modelled from the spec: `OptionMath.toBaseTokenAmount` is missing from
the source tree; the spec says it scales a `u256` by
`10 ^ (baseDecimals - underlyingDecimals)` with sign. -/
def toBaseTokenAmount (underlyingDecimals baseDecimals : ℕ) (value : ℕ) : ℕ :=
  if underlyingDecimals ≤ baseDecimals then
    value * 10 ^ (baseDecimals - underlyingDecimals)
  else value / 10 ^ (underlyingDecimals - baseDecimals)

/-- Modelled from the spec: `OptionMath.fromContractsToCollateral` (the
canonical five-argument overload) is missing from the source tree; the spec
says: if call, return `size` unchanged (call collateral = underlying); if
put, return `size × strike` rescaled to base decimals. -/
def fromContractsToCollateral (contracts : ℕ) (isCall : Bool)
    (underlyingDecimals baseDecimals : ℕ) (strike64x64 : ℤ) : ℕ :=
  if isCall then contracts
  else toBaseTokenAmount underlyingDecimals baseDecimals (mulu strike64x64 contracts)

/-- Modelled from the spec: the collateral→contracts conversion is missing
from the source tree (in the source it is the four-argument
`OptionMath.fromContractsToCollateral` overload, which the test harness
`TestOptionMath.fromCollateralToContracts` forwards to); the spec defines
`fromCollateralToContracts(collateral, isCall, baseDecimals, strike)` as the
inverse of `fromContractsToCollateral`: if call, return `collateral`
unchanged; if put, divide by the strike (64.64 floor division). -/
def fromCollateralToContracts (collateral : ℕ) (isCall : Bool)
    (baseDecimals : ℕ) (strike64x64 : ℤ) : ℕ :=
  if isCall then collateral
  else ((collateral * 2 ^ 64 : ℤ) / strike64x64).toNat

/-! ## Auction contract state and entry points (`Auction.sol`)

All entry points of one epoch's auction are embedded over a state holding
the auction record, the order book and — per buyer — whether this epoch is
in the buyer's epoch set (`epochsByBuyer`, embedded as the list of buyers
whose set contains the epoch).  `block.timestamp` is the explicit parameter
`now`; cross-contract reads (`Vault.totalCollateral()` converted to
contracts, `Pool.balanceOf`) are explicit parameters. -/

/-- The mutable state of one epoch of the auction contract. -/
structure AuctionState where
  auction : Auction
  book : List Order
  buyersWithEpoch : List ℕ
  deriving Repr, DecidableEq

/-- The state an epoch starts with. -/
def AuctionState.init : AuctionState := ⟨Auction.init, [], []⟩

/-- `AuctionStorage.InitAuction`. -/
structure InitAuction where
  expiry : ℕ
  strike64x64 : ℤ
  longTokenId : ℕ
  startTime : ℕ
  endTime : ℕ
  deriving Repr, DecidableEq

/-- `Auction.initialize` (vault only): from `UNINITIALIZED`; cancels the
auction when a validity check on the parameters fails, otherwise stores them
and moves to `INITIALIZED`. -/
def initializeOp (s : AuctionState) (i : InitAuction) (now : ℕ) :
    Option AuctionState :=
  if s.auction.status = .UNINITIALIZED then
    if i.endTime ≤ i.startTime ∨ i.startTime < now ∨ i.expiry < now ∨
        i.strike64x64 ≤ 0 ∨ i.longTokenId = 0 then
      some { s with auction := cancelAuction s.auction }
    else
      some { s with auction :=
        { s.auction with
          status := .INITIALIZED
          expiry := i.expiry
          strike64x64 := i.strike64x64
          startTime := i.startTime
          endTime := i.endTime
          longTokenId := i.longTokenId } }
  else none

/-- `Auction.setAuctionPrices` (vault only): requires `INITIALIZED`; stores
the max/min prices, then cancels the auction when
`max ≤ 0 ∨ min ≤ 0 ∨ max ≤ min`. -/
def setAuctionPrices (s : AuctionState) (maxPrice64x64 minPrice64x64 : ℤ) :
    Option AuctionState :=
  if s.auction.status = .INITIALIZED then
    let a1 := { s.auction with
      maxPrice64x64 := maxPrice64x64, minPrice64x64 := minPrice64x64 }
    if maxPrice64x64 ≤ 0 ∨ minPrice64x64 ≤ 0 ∨ maxPrice64x64 ≤ minPrice64x64 then
      some { s with auction := cancelAuction a1 }
    else some { s with auction := a1 }
  else none

/-- `AuctionInternal._limitOrdersAllowed`: status is `INITIALIZED`, the end
time is set and has not passed. -/
def limitOrdersAllowed (a : Auction) (now : ℕ) : Prop :=
  a.status = .INITIALIZED ∧ 0 < a.endTime ∧ now ≤ a.endTime

instance (a : Auction) (now : ℕ) : Decidable (limitOrdersAllowed a now) :=
  inferInstanceAs (Decidable (_ ∧ _ ∧ _))

/-- `AuctionInternal._addOrder`: record the epoch in the buyer's epoch set,
insert the order, and — once the auction has started — run the
finalize-check. -/
def addOrder (s : AuctionState) (o : Order) (derivedContracts now : ℕ) :
    AuctionState :=
  ⟨if s.auction.startTime ≤ now then
      finalizeAuctionInternal s.auction (insertOrder o s.book) derivedContracts now
    else s.auction,
   insertOrder o s.book,
   if o.buyer ∈ s.buyersWithEpoch then s.buyersWithEpoch
   else o.buyer :: s.buyersWithEpoch⟩

/-- `Auction.addLimitOrder`: requires limit orders allowed, `price > 0` and
`size ≥ minSize` (`_validateLimitOrder`); then `_addOrder`.  `nextId` stands
for the order book's monotone id counter. -/
def addLimitOrder (s : AuctionState) (minSize : ℕ) (price64x64 : ℤ) (size : ℕ)
    (buyer : ℕ) (nextId derivedContracts now : ℕ) : Option AuctionState :=
  if limitOrdersAllowed s.auction now ∧ 0 < price64x64 ∧ minSize ≤ size then
    some (addOrder s ⟨nextId, price64x64, size, buyer⟩ derivedContracts now)
  else none

/-- `Auction.addMarketOrder`: requires `INITIALIZED`, the auction started
and not ended, `size ≥ minSize` and the curve cost within `maxCost`
(`_validateMarketOrder`); the order is added at the current curve price. -/
def addMarketOrder (s : AuctionState) (minSize : ℕ) (size maxCost : ℕ)
    (buyer : ℕ) (nextId derivedContracts now : ℕ) : Option AuctionState :=
  if s.auction.status = .INITIALIZED ∧
      (0 < s.auction.startTime ∧ s.auction.startTime ≤ now) ∧
      (0 < s.auction.endTime ∧ now ≤ s.auction.endTime) ∧
      minSize ≤ size ∧ mulu (priceCurve64x64 s.auction now) size ≤ maxCost then
    some (addOrder s ⟨nextId, priceCurve64x64 s.auction now, size, buyer⟩
      derivedContracts now)
  else none

/-- `Auction.cancelLimitOrder`: requires limit orders allowed, a valid id,
an existing order owned by the caller; removes the order, removes the epoch
from the buyer's epoch set, and — once the auction has started — runs the
finalize-check. -/
def cancelLimitOrder (s : AuctionState) (sender id : ℕ)
    (derivedContracts now : ℕ) : Option AuctionState :=
  if limitOrdersAllowed s.auction now ∧ 0 < id then
    match s.book.find? (fun o => o.id = id) with
    | none => none
    | some o =>
      if o.buyer = sender then
        some ⟨if s.auction.startTime ≤ now then
            finalizeAuctionInternal s.auction (removeOrder id s.book)
              derivedContracts now
          else s.auction,
          removeOrder id s.book,
          s.buyersWithEpoch.filter (fun b => b ≠ o.buyer)⟩
      else none
  else none

/-- `Auction.finalizeAuction` (any caller): past `endTime + 24h` an
`INITIALIZED`/`FINALIZED` auction is cancelled; otherwise, once started, an
`INITIALIZED` auction runs the finalize-check.  Other states: no-op. -/
def finalizeAuctionExt (s : AuctionState) (derivedContracts now : ℕ) :
    AuctionState :=
  if s.auction.endTime + 86400 ≤ now ∧
      (s.auction.status = .INITIALIZED ∨ s.auction.status = .FINALIZED) then
    { s with auction := cancelAuction s.auction }
  else if s.auction.startTime < now ∧ s.auction.status = .INITIALIZED then
    { s with auction := finalizeAuctionInternal s.auction s.book derivedContracts now }
  else s

/-- `Auction.transferPremium` (vault only): requires `FINALIZED` and
`totalPremiums == 0`; sets `totalPremiums = lastPrice × totalContractsSold`
and transfers that amount to the vault.  Returns the new state and the
amount transferred. -/
def transferPremium (s : AuctionState) : Option (AuctionState × ℕ) :=
  if s.auction.status = .FINALIZED ∧ s.auction.totalPremiums = 0 then
    let p := mulu s.auction.lastPrice64x64 s.auction.totalContractsSold
    some ({ s with auction := { s.auction with totalPremiums := p } }, p)
  else none

/-- `Auction.processAuction` (vault only): requires `FINALIZED`; when
contracts were sold, requires the premiums transferred and the long tokens
minted to the auction (`longTokenBalance` is `Pool.balanceOf`); stamps
`processedTime` and moves to `PROCESSED`. -/
def processAuctionOp (s : AuctionState) (longTokenBalance now : ℕ) :
    Option AuctionState :=
  if s.auction.status = .FINALIZED then
    if 0 < s.auction.totalContractsSold ∧
        ¬(0 < s.auction.totalPremiums ∧
          s.auction.totalContractsSold ≤ longTokenBalance) then none
    else some { s with auction :=
      { s.auction with processedTime := now, status := .PROCESSED } }
  else none

/-! ## Withdraw (`AuctionInternal._previewWithdraw` / `_withdraw`) -/

/-- Accumulator of the `_previewWithdraw` traversal: the refund and fill
owed to the buyer so far and the running sum of order sizes
(`totalContractsSold` in the loop body). -/
structure PW where
  refund : ℕ
  fill : ℕ
  sold : ℕ
  deriving Repr, DecidableEq

/-- One iteration of the `_previewWithdraw` loop over the order book.  For
an order of the buyer: if the auction was not cancelled
(`lastPrice < int128.max`) and the order price is at least the clearing
price, the order is filled — partially (by `remainder =
totalContracts - sold`) when it crosses `totalContracts` — and the refund is
`paid - cost`; otherwise the full `price × size` is refunded.  Both
`uint256` subtractions are checked. -/
def previewWithdrawStep (lastPrice64x64 : ℤ) (totalContracts buyer : ℕ)
    (acc : PW) (o : Order) : Option PW :=
  if o.buyer = buyer then
    if lastPrice64x64 < INT128_MAX ∧ lastPrice64x64 ≤ o.price64x64 then
      let paid := mulu o.price64x64 o.size
      if totalContracts ≤ acc.sold + o.size then
        -- checked `uint256` subtractions (Solidity ≥ 0.8 reverts on underflow)
        if acc.sold ≤ totalContracts then
          let remainder := totalContracts - acc.sold
          if mulu lastPrice64x64 remainder ≤ paid then
            some ⟨acc.refund + (paid - mulu lastPrice64x64 remainder),
                  acc.fill + remainder, acc.sold + o.size⟩
          else none
        else none
      else
        if mulu lastPrice64x64 o.size ≤ paid then
          some ⟨acc.refund + (paid - mulu lastPrice64x64 o.size),
                acc.fill + o.size, acc.sold + o.size⟩
        else none
    else
      some ⟨acc.refund + mulu o.price64x64 o.size, acc.fill, acc.sold + o.size⟩
  else some ⟨acc.refund, acc.fill, acc.sold + o.size⟩

/-- The `_previewWithdraw` traversal of an order book, starting from a zero
accumulator. -/
def previewWithdraw (book : List Order) (lastPrice64x64 : ℤ)
    (totalContracts buyer : ℕ) : Option PW :=
  book.foldlM (previewWithdrawStep lastPrice64x64 totalContracts buyer) ⟨0, 0, 0⟩

/-- `_previewWithdraw` on an auction state: the clearing price and
`totalContracts` come from the auction record. -/
def previewWithdrawOf (s : AuctionState) (buyer now : ℕ) : Option PW :=
  previewWithdraw s.book (clearingPrice64x64 s.auction now)
    s.auction.totalContracts buyer

/-- `AuctionInternal._getExerciseAmount`: before expiry, nothing; after
expiry, the ITM value per the post-expiry spot (`Pool.getPriceAfter64x64`),
in underlying for calls and rescaled to base decimals for puts. -/
def getExerciseAmount (isCall : Bool) (underlyingDecimals baseDecimals : ℕ)
    (expiry : ℕ) (strike64x64 spot64x64 : ℤ) (now size : ℕ) : Bool × ℕ :=
  if now < expiry then (false, 0)
  else if isCall then
    if strike64x64 < spot64x64 then
      (true, mulu (((spot64x64 - strike64x64) * 2 ^ 64) / spot64x64) size)
    else (true, 0)
  else
    if spot64x64 < strike64x64 then
      (true, toBaseTokenAmount underlyingDecimals baseDecimals
        (mulu (strike64x64 - spot64x64) size))
    else (true, 0)

/-- `Auction.withdraw` → `AuctionInternal._withdraw`: requires `PROCESSED`
(after the 24h hold period) or `CANCELLED`; runs the traversal removing the
caller's orders, removes the epoch from the caller's epoch set, and applies
the exercise adjustment.  Returns the new state and the (refund, fill)
transferred out. -/
def withdrawOp (s : AuctionState) (sender : ℕ) (isCall : Bool)
    (underlyingDecimals baseDecimals : ℕ) (spot64x64 : ℤ) (now : ℕ) :
    Option (AuctionState × ℕ × ℕ) :=
  if (s.auction.status = .PROCESSED ∨ s.auction.status = .CANCELLED) ∧
      (s.auction.status = .PROCESSED → s.auction.processedTime + 86400 ≤ now) then
    match previewWithdrawOf s sender now with
    | none => none
    | some pw =>
      let e := getExerciseAmount isCall underlyingDecimals baseDecimals
        s.auction.expiry s.auction.strike64x64 spot64x64 now pw.fill
      let refund := if e.1 then pw.refund + e.2 else pw.refund
      let fill := if e.1 then 0 else pw.fill
      some (⟨s.auction, s.book.filter (fun o => o.buyer ≠ sender),
             s.buyersWithEpoch.filter (fun b => b ≠ sender)⟩, refund, fill)
  else none

/-! ## Vault (`VaultInternal.sol`, `VaultAdmin.sol`) -/

/-- `VaultInternal._getFriday`: the Friday 08:00 UTC mark used to anchor the
auction window (`1 days = 86400`, `7 days = 604800`, `8 hours = 28800`;
epoch day 0 was a Thursday, hence the `+ 4`). -/
def getFriday (timestamp : ℕ) : ℕ :=
  let dayOfWeek := (timestamp / 86400 + 4) % 7
  let nextFriday := timestamp + ((7 + 5 - dayOfWeek) % 7) * 86400
  let friday8am := nextFriday - nextFriday % 86400 + 28800
  if friday8am ≤ timestamp then friday8am + 604800 else friday8am

/-- `VaultInternal._getNextFriday`: as `_getFriday`, but also rolls over to
the following week when the coming Friday is less than four days away. -/
def getNextFriday (timestamp : ℕ) : ℕ :=
  let dayOfWeek := (timestamp / 86400 + 4) % 7
  let nextFriday := timestamp + ((7 + 5 - dayOfWeek) % 7) * 86400
  let friday8am := nextFriday - nextFriday % 86400 + 28800
  if friday8am ≤ timestamp ∨ friday8am - timestamp < 4 * 86400 then
    friday8am + 604800
  else friday8am

/-- The vault storage fields the verified entry points touch
(`VaultStorage.Layout`). -/
structure VaultState where
  epoch : ℕ
  startTime : ℕ
  auctionProcessed : Bool
  startOffset : ℕ
  endOffset : ℕ
  performanceFee64x64 : ℤ
  withdrawalFee64x64 : ℤ
  lastTotalAssets : ℕ
  deriving Repr, DecidableEq

/-- `VaultInternal.withdrawalsLocked` modifier: passes unless the auction
has started (`now ≥ startTime`) and has not been processed; in that case the
guarded call fails with `AuctionNotProcessed`
("auction has not been processed"). -/
def withdrawalsLockedPasses (v : VaultState) (now : ℕ) : Bool :=
  if v.startTime ≤ now then v.auctionProcessed else true

/-- `VaultAdmin.initializeAuction` (keeper only), restricted to the fields
of the vault record: stamps `startTime = friday(now) + startOffset`, resets
`auctionProcessed`, and builds the `InitAuction` payload handed to
`Auction.initialize` (the strike and long-token id come from the pricer and
are parameters; `expiry = nextFriday(now)` per `_setOptionParameters`). -/
def vaultInitializeAuction (v : VaultState) (strike64x64 : ℤ)
    (longTokenId : ℕ) (now : ℕ) : VaultState × InitAuction :=
  let startTimestamp := getFriday now
  let startTime := startTimestamp + v.startOffset
  let endTime := startTimestamp + v.endOffset
  ({ v with startTime := startTime, auctionProcessed := false },
   ⟨getNextFriday now, strike64x64, longTokenId, startTime, endTime⟩)

/-- `VaultAdmin.processAuction` (keeper only), restricted to the fields of
the vault record: snapshots `lastTotalAssets` and deactivates the withdrawal
lock (the premium transfer, underwriting and `Auction.processAuction` call
are the cross-contract steps embedded separately). -/
def vaultProcessAuction (v : VaultState) (totalAssets : ℕ) : VaultState :=
  { v with lastTotalAssets := totalAssets, auctionProcessed := true }

/-- `VaultAdmin.setPerformanceFee64x64` (owner only): requires
`newFee < 1` (64.64 one is `2 ^ 64`). -/
def setPerformanceFee64x64 (v : VaultState) (newFee64x64 : ℤ) :
    Option VaultState :=
  if newFee64x64 < 2 ^ 64 then
    some { v with performanceFee64x64 := newFee64x64 }
  else none

/-- `VaultAdmin.setWithdrawalFee64x64` (owner only): requires
`newFee < 1` (64.64 one is `2 ^ 64`). -/
def setWithdrawalFee64x64 (v : VaultState) (newFee64x64 : ℤ) :
    Option VaultState :=
  if newFee64x64 < 2 ^ 64 then
    some { v with withdrawalFee64x64 := newFee64x64 }
  else none

/-- `VaultInternal._calculateDistributionAmount`: the 64.64 ratio of
`collateralAmount` to `totalAssets` applied to `assetAmount`, with zero
guards around the fixed-point division and multiplication. -/
def calculateDistributionAmount (assetAmount collateralAmount totalAssets : ℕ) :
    ℕ :=
  let assetRatio64x64 : ℤ :=
    if 0 < collateralAmount then divu collateralAmount totalAssets else 0
  if 0 < assetRatio64x64 then mulu assetRatio64x64 assetAmount else 0

/-- `VaultInternal._calculateDistributions`: split `assetAmount` into the
collateral portion and the short portion (computed as collateral, then
converted back to short contracts).  `totalCollateral` and
`totalShortAsCollateral` are the balance-derived views `_totalCollateral()`
and `_totalShortAsCollateral()`; `_totalAssets()` is their sum. -/
def calculateDistributions (isCall : Bool) (baseDecimals : ℕ)
    (strike64x64 : ℤ) (totalCollateral totalShortAsCollateral assetAmount : ℕ) :
    ℕ × ℕ :=
  let totalAssets := totalCollateral + totalShortAsCollateral
  let collateralAmount :=
    calculateDistributionAmount assetAmount totalCollateral totalAssets
  let shortAsCollateral :=
    calculateDistributionAmount assetAmount totalShortAsCollateral totalAssets
  (collateralAmount,
   fromCollateralToContracts shortAsCollateral isCall baseDecimals strike64x64)

/-! ## Spec-side formulations

Definitions written from the wording of the specification / claims, to be
compared with the code-side embeddings above. -/

/-- Sum of the sizes of a list of orders. -/
def sumSizes (l : List Order) : ℕ := (l.map Order.size).sum

/-- Written from the claim (finalize-check): the traversal "breaks at the
first order whose price is below the current clearing price", so it only
ever sees the longest prefix of orders priced at or above the clearing
price. -/
def qualifyingPrefix (clearing : ℤ) (book : List Order) : List Order :=
  book.takeWhile (fun o => clearing ≤ o.price64x64)

/-- Written from the claim (finalize-check): accumulate order sizes along
the (already qualifying) orders; as soon as `accumulated + size` reaches
`totalContracts`, auto-finalize with `lastPrice` = this order's price and
`totalContractsSold = totalContracts`; otherwise remember the last visited
order's price. -/
def specFillLoop (totalContracts : ℕ) : List Order → ℕ → ℤ → ℕ × ℤ × Bool
  | [], acc, last => (acc, last, false)
  | o :: rest, acc, last =>
    if totalContracts ≤ acc + o.size then (totalContracts, o.price64x64, true)
    else specFillLoop totalContracts rest (acc + o.size) o.price64x64

/-- Written from the claim (finalize-check, C6): run the accumulation over
the qualifying prefix; store the resulting last price and total sold; the
auction becomes `FINALIZED` when 100% utilization was reached or the current
time is past `endTime`. -/
def specFinalizeCheck (a : Auction) (book : List Order)
    (derivedContracts now : ℕ) : Auction :=
  let T := getTotalContracts a derivedContracts
  let a1 := { a with totalContracts := T }
  let r := specFillLoop T (qualifyingPrefix (clearingPrice64x64 a1 now) book) 0 0
  let a2 := { a1 with totalContractsSold := r.1, lastPrice64x64 := r.2.1 }
  if r.2.2 = true ∨ a.endTime < now then { a2 with status := .FINALIZED } else a2

/-- The per-order cost the withdraw claim (C1) assigns: on filled portions
(auction not cancelled, order price at least the clearing price)
`clearingPrice × min(size, remainder)` where `remainder =
totalContracts - sold-so-far`; `0` on unfilled or cancelled portions. -/
def claimOrderCost (lastPrice64x64 : ℤ) (totalContracts sold : ℕ)
    (o : Order) : ℕ :=
  if lastPrice64x64 < INT128_MAX ∧ lastPrice64x64 ≤ o.price64x64 then
    mulu lastPrice64x64 (min o.size (totalContracts - sold))
  else 0

/-- The claim's cost sum over a buyer's orders, threading the running sum of
all order sizes exactly as the traversal does. -/
def claimCostSum (lastPrice64x64 : ℤ) (totalContracts buyer : ℕ) :
    List Order → ℕ → ℕ
  | [], _ => 0
  | o :: rest, sold =>
    (if o.buyer = buyer then claimOrderCost lastPrice64x64 totalContracts sold o
     else 0) +
      claimCostSum lastPrice64x64 totalContracts buyer rest (sold + o.size)

/-- The total `price × size` the buyer paid into the order book. -/
def claimPaidSum (buyer : ℕ) (book : List Order) : ℕ :=
  ((book.filter (fun o => o.buyer = buyer)).map
    (fun o => mulu o.price64x64 o.size)).sum

/-- Written from the claim (C2): the collateral portion
`totalCollateral × assetAmount / totalAssets` and the short-as-collateral
portion `totalShortAsCollateral × assetAmount / totalAssets`, both as 64.64
ratios, the latter converted back to short contracts with
`fromCollateralToContracts`. -/
def specWithdrawDistribution (isCall : Bool) (baseDecimals : ℕ)
    (strike64x64 : ℤ) (totalCollateral totalShortAsCollateral assetAmount : ℕ) :
    ℕ × ℕ :=
  let totalAssets := totalCollateral + totalShortAsCollateral
  (mulu (divu totalCollateral totalAssets) assetAmount,
   fromCollateralToContracts
     (mulu (divu totalShortAsCollateral totalAssets) assetAmount)
     isCall baseDecimals strike64x64)

/-! ## Reachability

One epoch of the auction contract as a transition system: any entry point,
invoked with any caller and any environment (timestamp, pool balances,
vault collateral). -/

/-- The order book is sorted by non-increasing price (spec invariant I1). -/
def SortedBook (book : List Order) : Prop :=
  book.Pairwise (fun a b => b.price64x64 ≤ a.price64x64)

/-- One observable transition of an epoch's auction state. -/
inductive AStep : AuctionState → AuctionState → Prop where
  | initOp (s s' : AuctionState) (i : InitAuction) (now : ℕ)
      (h : initializeOp s i now = some s') : AStep s s'
  | setPrices (s s' : AuctionState) (maxP minP : ℤ)
      (h : setAuctionPrices s maxP minP = some s') : AStep s s'
  | addLimit (s s' : AuctionState) (minSize : ℕ) (price : ℤ)
      (size buyer nextId dc now : ℕ)
      (h : addLimitOrder s minSize price size buyer nextId dc now = some s') :
      AStep s s'
  | addMarket (s s' : AuctionState) (minSize size maxCost buyer nextId dc now : ℕ)
      (h : addMarketOrder s minSize size maxCost buyer nextId dc now = some s') :
      AStep s s'
  | cancelOrder (s s' : AuctionState) (sender id dc now : ℕ)
      (h : cancelLimitOrder s sender id dc now = some s') : AStep s s'
  | finalize (s : AuctionState) (dc now : ℕ) :
      AStep s (finalizeAuctionExt s dc now)
  | transferP (s s' : AuctionState) (p : ℕ)
      (h : transferPremium s = some (s', p)) : AStep s s'
  | processA (s s' : AuctionState) (bal now : ℕ)
      (h : processAuctionOp s bal now = some s') : AStep s s'
  | withdrawO (s s' : AuctionState) (sender : ℕ) (isCall : Bool)
      (ud bd : ℕ) (spot : ℤ) (now r f : ℕ)
      (h : withdrawOp s sender isCall ud bd spot now = some (s', r, f)) :
      AStep s s'

/-- Auction states reachable from the start of an epoch. -/
def Reachable (s : AuctionState) : Prop :=
  Relation.ReflTransGen AStep AuctionState.init s

/-- The inductive invariant of the auction record:
`totalContractsSold ≤ totalContracts` always, `totalPremiums` is zero until
the auction is finalized, and from then on it is zero or
`lastPrice × totalContractsSold`. -/
def AuctionInv (a : Auction) : Prop :=
  a.totalContractsSold ≤ a.totalContracts ∧
    ((a.status = .FINALIZED ∨ a.status = .PROCESSED) →
      a.totalPremiums = 0 ∨
        a.totalPremiums = mulu a.lastPrice64x64 a.totalContractsSold) ∧
    (¬(a.status = .FINALIZED ∨ a.status = .PROCESSED) → a.totalPremiums = 0)

/-! ## Concrete runs

Explicit states of one epoch, produced by running the entry points on
concrete inputs (times in seconds, prices in 64.64, buyer address `7`).
They witness reachability in the theorems below. -/

/-- After `initialize` with strike `1.0`, window `[1000, 2000]`, at time 500. -/
def exState1 : AuctionState :=
  ⟨⟨.INITIALIZED, 10000, 2 ^ 64, 0, 0, 0, 1000, 2000, 0, 0, 0, 0, 1⟩, [], []⟩

/-- After `setAuctionPrices` with `max = 100`, `min = 50`. -/
def exState2 : AuctionState :=
  ⟨⟨.INITIALIZED, 10000, 2 ^ 64, 100 * 2 ^ 64, 50 * 2 ^ 64, 0, 1000, 2000, 0,
    0, 0, 0, 1⟩, [], []⟩

/-- After buyer `7` adds a limit order (price 80, size 100) at time 1500 with
200 derived contracts: the order-processing step records 100 contracts
sold. -/
def exState3 : AuctionState :=
  ⟨⟨.INITIALIZED, 10000, 2 ^ 64, 100 * 2 ^ 64, 50 * 2 ^ 64, 80 * 2 ^ 64, 1000,
    2000, 0, 200, 100, 0, 1⟩, [⟨1, 80 * 2 ^ 64, 100, 7⟩], [7]⟩

/-- After buyer `7` cancels that order at time 1600: the rerun
order-processing step resets `totalContractsSold` to 0. -/
def exState4 : AuctionState :=
  ⟨⟨.INITIALIZED, 10000, 2 ^ 64, 100 * 2 ^ 64, 50 * 2 ^ 64, 0, 1000, 2000, 0,
    200, 0, 0, 1⟩, [], []⟩

/-- `exState2` finalized by `finalizeAuction` at time 2500 with an empty
book: `lastPrice = 0`, `totalContractsSold = 0`, `totalPremiums = 0`. -/
def exFinalizedEmpty : AuctionState :=
  ⟨⟨.FINALIZED, 10000, 2 ^ 64, 100 * 2 ^ 64, 50 * 2 ^ 64, 0, 1000, 2000, 0,
    200, 0, 0, 1⟩, [], []⟩

/-- A finalized auction that sold 10 contracts at a clearing price of 2. -/
def exFinalizedSold : AuctionState :=
  ⟨⟨.FINALIZED, 10000, 2 ^ 64, 100 * 2 ^ 64, 50 * 2 ^ 64, 2 * 2 ^ 64, 1000,
    2000, 0, 200, 10, 0, 1⟩, [], []⟩

/-- `exFinalizedSold` after its premium transfer (`2 × 10 = 20`). -/
def exFinalizedSoldPaid : AuctionState :=
  ⟨⟨.FINALIZED, 10000, 2 ^ 64, 100 * 2 ^ 64, 50 * 2 ^ 64, 2 * 2 ^ 64, 1000,
    2000, 0, 200, 10, 20, 1⟩, [], []⟩

/-! ## Helper lemmas -/

/-- The `_processOrders` loop equals the claim's two-phase description: take
the qualifying prefix (break at the first order priced below the clearing
price), then accumulate with auto-finalize. -/
theorem processOrdersLoop_eq_specFillLoop (clearing : ℤ) (T : ℕ) :
    ∀ (book : List Order) (sold : ℕ) (last : ℤ),
      processOrdersLoop clearing T book sold last =
        specFillLoop T (qualifyingPrefix clearing book) sold last := by
  intro book
  induction book with
  | nil => intro sold last; rfl
  | cons o rest ih =>
    intro sold last
    by_cases h : o.price64x64 < clearing
    · simp [processOrdersLoop, qualifyingPrefix, List.takeWhile_cons, not_le.mpr h, h,
        specFillLoop]
    · simp only [processOrdersLoop, if_neg h, qualifyingPrefix, List.takeWhile_cons,
        decide_eq_true (not_lt.mp h), specFillLoop]
      by_cases hT : T ≤ sold + o.size
      · simp [hT]
      · simp [hT, ih, qualifyingPrefix]

/-- The accumulation loop's sold result is `min totalContracts (acc + Σ sizes)`. -/
theorem specFillLoop_sold (T : ℕ) :
    ∀ (l : List Order) (acc : ℕ) (last : ℤ), acc ≤ T →
      (specFillLoop T l acc last).1 = min T (acc + sumSizes l) := by
  intro l
  induction l with
  | nil => intro acc last h; simp [specFillLoop, sumSizes]; omega
  | cons o rest ih =>
    intro acc last h
    simp only [specFillLoop, sumSizes, List.map_cons, List.sum_cons]
    by_cases hT : T ≤ acc + o.size
    · simp only [if_pos hT]; omega
    · rw [if_neg hT, ih (acc + o.size) o.price64x64 (by omega)]
      simp only [sumSizes]; omega

/-- The `_processOrders` loop never reports more sold than `totalContracts`. -/
theorem processOrdersLoop_sold_le (clearing : ℤ) (T : ℕ) :
    ∀ (book : List Order) (acc : ℕ) (last : ℤ), acc ≤ T →
      (processOrdersLoop clearing T book acc last).1 ≤ T := by
  intro book
  induction book with
  | nil => intro acc last h; simpa [processOrdersLoop] using h
  | cons o rest ih =>
    intro acc last h
    simp only [processOrdersLoop]
    by_cases hb : o.price64x64 < clearing
    · simpa [hb] using h
    · simp only [if_neg hb]
      by_cases hT : T ≤ acc + o.size
      · simp [hT]
      · simpa [hT] using ih (acc + o.size) o.price64x64 (by omega)

/-- After `_finalizeAuction`, `totalContractsSold ≤ totalContracts`. -/
theorem finalizeAuctionInternal_sold_le (a : Auction) (book : List Order)
    (dc now : ℕ) :
    (finalizeAuctionInternal a book dc now).totalContractsSold ≤
      (finalizeAuctionInternal a book dc now).totalContracts := by
  have h := processOrdersLoop_sold_le
    (clearingPrice64x64 { a with totalContracts := getTotalContracts a dc } now)
    (getTotalContracts a dc) book 0 0 (Nat.zero_le _)
  simp only [finalizeAuctionInternal, processOrders]
  split <;> simpa using h

/-- On a price-sorted book, the qualifying prefix is exactly the set of
orders priced at or above the clearing price. -/
theorem qualifyingPrefix_eq_filter (p : ℤ) :
    ∀ {book : List Order}, SortedBook book →
      qualifyingPrefix p book =
        book.filter (fun o => decide (p ≤ o.price64x64)) := by
  intro book
  induction book with
  | nil => intro _; rfl
  | cons o rest ih =>
    intro hs
    rw [SortedBook, List.pairwise_cons] at hs
    by_cases h : p ≤ o.price64x64
    · simp only [qualifyingPrefix, List.takeWhile_cons, List.filter_cons,
        decide_eq_true h, if_pos trivial]
      exact congrArg (o :: ·) (ih hs.2)
    · simp only [qualifyingPrefix, List.takeWhile_cons, decide_eq_false h]
      rw [List.filter_cons, if_neg (by simp [h])]
      have : rest.filter (fun o => decide (p ≤ o.price64x64)) = [] := by
        rw [List.filter_eq_nil]
        intro b hb
        have := hs.1 b hb
        simp only [decide_eq_true_eq]
        omega
      simp only [this]
      simp [h]

/-- `insertOrder` produces a permutation of consing the order. -/
theorem insertOrder_perm (o : Order) :
    ∀ book : List Order, (insertOrder o book).Perm (o :: book) := by
  intro book
  induction book with
  | nil => exact List.Perm.refl _
  | cons h t ih =>
    by_cases hc : o.price64x64 ≤ h.price64x64
    · simpa [insertOrder, hc] using (ih.cons h).trans (List.Perm.swap o h t)
    · simp [insertOrder, hc]

/-- `insertOrder` preserves the sortedness invariant (I1). -/
theorem sortedBook_insertOrder (o : Order) :
    ∀ {book : List Order}, SortedBook book → SortedBook (insertOrder o book) := by
  intro book
  induction book with
  | nil => intro _; simp [insertOrder, SortedBook]
  | cons h t ih =>
    intro hs
    rw [SortedBook, List.pairwise_cons] at hs
    by_cases hc : o.price64x64 ≤ h.price64x64
    · rw [insertOrder, if_pos hc, SortedBook, List.pairwise_cons]
      refine ⟨fun b hb => ?_, ih hs.2⟩
      rcases List.mem_cons.mp ((insertOrder_perm o t).mem_iff.mp hb) with hb | hb
      · subst hb; exact hc
      · exact hs.1 b hb
    · rw [insertOrder, if_neg hc, SortedBook, List.pairwise_cons]
      refine ⟨fun b hb => ?_, List.pairwise_cons.mpr hs⟩
      rcases List.mem_cons.mp hb with hb | hb
      · subst hb; omega
      · have := hs.1 b hb; omega

/-- Lowering the clearing price can only grow the qualifying size sum. -/
theorem sumSizes_filter_mono {p p' : ℤ} (h : p' ≤ p) :
    ∀ book : List Order,
      sumSizes (book.filter (fun o => decide (p ≤ o.price64x64))) ≤
        sumSizes (book.filter (fun o => decide (p' ≤ o.price64x64))) := by
  intro book
  induction book with
  | nil => simp
  | cons o rest ih =>
    by_cases hc : p ≤ o.price64x64
    · have hc' : p' ≤ o.price64x64 := le_trans h hc
      simpa [List.filter_cons, hc, hc', sumSizes] using ih
    · by_cases hc' : p' ≤ o.price64x64
      · simp only [List.filter_cons, decide_eq_false hc, decide_eq_true hc',
          Bool.false_eq_true, if_false, if_pos trivial, sumSizes, List.map_cons,
          List.sum_cons]
        have hih := ih
        simp only [sumSizes] at hih
        omega
      · simpa [List.filter_cons, hc, hc', sumSizes] using ih

/-- `sumSizes` only depends on the multiset of orders. -/
theorem sumSizes_perm {l₁ l₂ : List Order} (h : l₁.Perm l₂) :
    sumSizes l₁ = sumSizes l₂ :=
  (h.map Order.size).sum_eq

/-- Value conservation of the `_previewWithdraw` traversal, generalized over
the starting accumulator: whenever the traversal succeeds, the final refund
plus the claim's cost sum equals the starting refund plus everything the
buyer paid. -/
theorem previewWithdraw_conservation (lastPrice64x64 : ℤ) (T buyer : ℕ) :
    ∀ (book : List Order) (acc pw : PW),
      List.foldlM (previewWithdrawStep lastPrice64x64 T buyer) acc book = some pw →
      pw.refund + claimCostSum lastPrice64x64 T buyer book acc.sold =
        acc.refund + claimPaidSum buyer book := by
  intro book
  induction book with
  | nil =>
    intro acc pw h
    simp only [List.foldlM_nil, Option.pure_def, Option.some.injEq] at h
    subst h
    simp [claimCostSum, claimPaidSum]
  | cons o rest ih =>
    intro acc pw h
    rw [List.foldlM_cons] at h
    rcases Option.bind_eq_some.mp h with ⟨acc', hstep, hrest⟩
    have hrec := ih acc' pw hrest
    unfold previewWithdrawStep at hstep
    by_cases hbuy : o.buyer = buyer
    · rw [if_pos hbuy] at hstep
      have hcs : claimCostSum lastPrice64x64 T buyer (o :: rest) acc.sold =
          claimOrderCost lastPrice64x64 T acc.sold o +
            claimCostSum lastPrice64x64 T buyer rest (acc.sold + o.size) := by
        simp [claimCostSum, hbuy]
      have hps : claimPaidSum buyer (o :: rest) =
          mulu o.price64x64 o.size + claimPaidSum buyer rest := by
        simp [claimPaidSum, List.filter_cons, hbuy]
      rw [hcs, hps]
      by_cases hfil : lastPrice64x64 < INT128_MAX ∧ lastPrice64x64 ≤ o.price64x64
      · rw [if_pos hfil] at hstep
        rw [claimOrderCost, if_pos hfil]
        by_cases hT : T ≤ acc.sold + o.size
        · rw [if_pos hT] at hstep
          by_cases hsold : acc.sold ≤ T
          · rw [if_pos hsold] at hstep
            by_cases hcost : mulu lastPrice64x64 (T - acc.sold) ≤ mulu o.price64x64 o.size
            · rw [if_pos hcost, Option.some.injEq] at hstep
              subst hstep
              simp only at hrec
              have hmin : min o.size (T - acc.sold) = T - acc.sold := by omega
              rw [hmin]
              omega
            · rw [if_neg hcost] at hstep; exact absurd hstep (by simp)
          · rw [if_neg hsold] at hstep; exact absurd hstep (by simp)
        · rw [if_neg hT] at hstep
          by_cases hcost : mulu lastPrice64x64 o.size ≤ mulu o.price64x64 o.size
          · rw [if_pos hcost, Option.some.injEq] at hstep
            subst hstep
            simp only at hrec
            have hmin : min o.size (T - acc.sold) = o.size := by omega
            rw [hmin]
            omega
          · rw [if_neg hcost] at hstep; exact absurd hstep (by simp)
      · rw [if_neg hfil] at hstep
        rw [claimOrderCost, if_neg hfil]
        rw [Option.some.injEq] at hstep
        subst hstep
        simp only at hrec
        omega
    · rw [if_neg hbuy] at hstep
      rw [Option.some.injEq] at hstep
      subst hstep
      have hcs : claimCostSum lastPrice64x64 T buyer (o :: rest) acc.sold =
          claimCostSum lastPrice64x64 T buyer rest (acc.sold + o.size) := by
        simp [claimCostSum, hbuy]
      have hps : claimPaidSum buyer (o :: rest) = claimPaidSum buyer rest := by
        simp [claimPaidSum, List.filter_cons, hbuy]
      rw [hcs, hps]
      simp only at hrec
      omega

/-- Any auction with zero premiums and `sold ≤ totalContracts` satisfies the
invariant. -/
theorem auctionInv_of_zero {a : Auction}
    (h1 : a.totalContractsSold ≤ a.totalContracts)
    (h2 : a.totalPremiums = 0) : AuctionInv a :=
  ⟨h1, fun _ => Or.inl h2, fun _ => h2⟩

/-- `_finalizeAuction` does not touch `totalPremiums`. -/
theorem finalizeAuctionInternal_premiums (a : Auction) (book : List Order)
    (dc now : ℕ) :
    (finalizeAuctionInternal a book dc now).totalPremiums = a.totalPremiums := by
  simp only [finalizeAuctionInternal, processOrders]
  split <;> rfl

/-- `_finalizeAuction` from a state with zero premiums keeps the invariant. -/
theorem auctionInv_finalizeInternal (a : Auction) (book : List Order)
    (dc now : ℕ) (hp : a.totalPremiums = 0) :
    AuctionInv (finalizeAuctionInternal a book dc now) :=
  auctionInv_of_zero (finalizeAuctionInternal_sold_le a book dc now)
    ((finalizeAuctionInternal_premiums a book dc now).trans hp)

/-- Every entry point of the auction contract preserves the invariant. -/
theorem auctionInv_step {s s' : AuctionState} (h : AStep s s')
    (inv : AuctionInv s.auction) : AuctionInv s'.auction := by
  obtain ⟨h1, h2, h3⟩ := inv
  cases h with
  | initOp _ i now h =>
    unfold initializeOp at h
    split at h
    case isFalse => exact absurd h (by simp)
    case isTrue hst =>
      have hp : s.auction.totalPremiums = 0 := h3 (by simp [hst])
      split at h <;> rw [Option.some.injEq] at h <;> subst h
      · exact auctionInv_of_zero h1 rfl
      · exact auctionInv_of_zero h1 hp
  | setPrices _ maxP minP h =>
    unfold setAuctionPrices at h
    split at h
    case isFalse => exact absurd h (by simp)
    case isTrue hst =>
      have hp : s.auction.totalPremiums = 0 := h3 (by simp [hst])
      split at h <;> rw [Option.some.injEq] at h <;> subst h
      · exact auctionInv_of_zero h1 rfl
      · exact auctionInv_of_zero h1 hp
  | addLimit _ minSize price size buyer nextId dc now h =>
    unfold addLimitOrder at h
    split at h
    case isFalse => exact absurd h (by simp)
    case isTrue hc =>
      have hp : s.auction.totalPremiums = 0 := h3 (by simp [hc.1.1])
      rw [Option.some.injEq] at h
      subst h
      simp only [addOrder]
      split
      · exact auctionInv_finalizeInternal _ _ _ _ hp
      · exact auctionInv_of_zero h1 hp
  | addMarket _ minSize size maxCost buyer nextId dc now h =>
    unfold addMarketOrder at h
    split at h
    case isFalse => exact absurd h (by simp)
    case isTrue hc =>
      have hp : s.auction.totalPremiums = 0 := h3 (by simp [hc.1])
      rw [Option.some.injEq] at h
      subst h
      simp only [addOrder]
      split
      · exact auctionInv_finalizeInternal _ _ _ _ hp
      · exact auctionInv_of_zero h1 hp
  | cancelOrder _ sender id dc now h =>
    unfold cancelLimitOrder at h
    split at h
    case isFalse => exact absurd h (by simp)
    case isTrue hc =>
      have hp : s.auction.totalPremiums = 0 := h3 (by simp [hc.1.1])
      split at h
      · exact absurd h (by simp)
      · split at h
        · rw [Option.some.injEq] at h
          subst h
          simp only []
          split
          · exact auctionInv_finalizeInternal _ _ _ _ hp
          · exact auctionInv_of_zero h1 hp
        · exact absurd h (by simp)
  | finalize dc now =>
    unfold finalizeAuctionExt
    split
    case isTrue => exact auctionInv_of_zero h1 rfl
    case isFalse =>
      split
      case isTrue hc =>
        exact auctionInv_finalizeInternal _ _ _ _ (h3 (by simp [hc.2]))
      case isFalse => exact ⟨h1, h2, h3⟩
  | transferP _ p h =>
    unfold transferPremium at h
    split at h
    case isFalse => exact absurd h (by simp)
    case isTrue hc =>
      simp only [Option.some.injEq, Prod.mk.injEq] at h
      obtain ⟨h, _⟩ := h
      subst h
      exact ⟨h1, fun _ => Or.inr rfl, fun hc' => absurd (Or.inl hc.1) hc'⟩
  | processA _ bal now h =>
    unfold processAuctionOp at h
    split at h
    case isFalse => exact absurd h (by simp)
    case isTrue hc =>
      split at h
      · exact absurd h (by simp)
      · rw [Option.some.injEq] at h
        subst h
        refine ⟨h1, fun _ => ?_, fun hc' => absurd (Or.inr rfl) hc'⟩
        simpa using h2 (Or.inl hc)
  | withdrawO _ sender isCall ud bd spot now r f h =>
    unfold withdrawOp at h
    split at h
    case isFalse => exact absurd h (by simp)
    case isTrue hc =>
      split at h
      · exact absurd h (by simp)
      · simp only [Option.some.injEq, Prod.mk.injEq] at h
        obtain ⟨h, _⟩ := h
        subst h
        exact ⟨h1, h2, h3⟩

/-- The invariant holds in every reachable auction state. -/
theorem auctionInv_reachable {s : AuctionState} (h : Reachable s) :
    AuctionInv s.auction := by
  unfold Reachable at h
  induction h with
  | refl => exact auctionInv_of_zero (le_refl 0) rfl
  | tail _ hstep ih => exact auctionInv_step hstep ih

/-! ## The claims -/

/-- C6.  The finalize-check (`_processOrders` + `_finalizeAuction`, run
after every order add, after a cancel once the auction has started, and on
`finalizeAuction`) traverses the order book from the head accumulating
sizes, breaks at the first order priced below the current clearing price,
auto-finalizes with `lastPrice` = the crossing order's price and
`totalContractsSold = totalContracts` as soon as the accumulated size
reaches `totalContracts`, and otherwise stores the last visited price and
the accumulated sum, transitioning to `FINALIZED` only when the current time
is past `endTime`. -/
theorem claim_c6_finalize_check (a : Auction) (book : List Order)
    (dc now : ℕ) :
    finalizeAuctionInternal a book dc now = specFinalizeCheck a book dc now := by
  simp only [finalizeAuctionInternal, specFinalizeCheck, processOrders,
    processOrdersLoop_eq_specFillLoop]

/-- C8 (counterexample).  `friday` is not idempotent: the code's
`_getFriday` returns the first Friday 08:00 UTC *strictly* greater than its
input, so applying it to its own output (a Friday 08:00, e.g.
`getFriday 0 = 115200`, Friday 1970-01-02 08:00 UTC) jumps one week
further. -/
theorem claim_c8_counterexample :
    getFriday 0 = 115200 ∧ getFriday (getFriday 0) = 720000 ∧
      getFriday (getFriday 0) ≠ getFriday 0 := by decide

/-- C8 (amended).  `_getFriday t` is the first Friday 08:00 UTC strictly
greater than `t` (a timestamp `≡ 115200 mod 604800`, within one week of
`t`); consequently it is not idempotent: `friday(friday(t)) = friday(t) +
7 days` for every `t`. -/
theorem claim_c8_amended (t : ℕ) :
    getFriday t % 604800 = 115200 ∧ t < getFriday t ∧
      getFriday t ≤ t + 604800 ∧
      getFriday (getFriday t) = getFriday t + 604800 := by
  have hmod : ∀ u : ℕ, getFriday u % 604800 = 115200 := by
    intro u
    simp only [getFriday]
    split <;> omega
  have hrange : t < getFriday t ∧ getFriday t ≤ t + 604800 := by
    simp only [getFriday]
    split <;> omega
  have hfix : getFriday (getFriday t) = getFriday t + 604800 := by
    have h := hmod t
    generalize getFriday t = f at h ⊢
    simp only [getFriday]
    split <;> omega
  exact ⟨hmod t, hrange.1, hrange.2, hfix⟩

/-- C5.  A successful `setAuctionPrices` (which requires an `INITIALIZED`
auction) with `maxPrice ≤ 0 ∨ minPrice ≤ 0 ∨ maxPrice ≤ minPrice` leaves the
auction `CANCELLED` with `lastPrice = int128.max` and `totalPremiums = 0`;
with valid prices the auction stays `INITIALIZED` with the given max/min
stored. -/
theorem claim_c5_setAuctionPrices (s s' : AuctionState) (maxP minP : ℤ)
    (h : setAuctionPrices s maxP minP = some s') :
    ((maxP ≤ 0 ∨ minP ≤ 0 ∨ maxP ≤ minP) →
      s'.auction.status = .CANCELLED ∧
      s'.auction.lastPrice64x64 = INT128_MAX ∧
      s'.auction.totalPremiums = 0) ∧
    (¬(maxP ≤ 0 ∨ minP ≤ 0 ∨ maxP ≤ minP) →
      s'.auction.status = .INITIALIZED ∧
      s'.auction.maxPrice64x64 = maxP ∧ s'.auction.minPrice64x64 = minP) := by
  unfold setAuctionPrices at h
  split at h
  case isFalse => exact absurd h (by simp)
  case isTrue hst =>
    split at h <;> rw [Option.some.injEq] at h <;> subst h
    case isTrue hbad =>
      exact ⟨fun _ => ⟨rfl, rfl, rfl⟩, fun hc => absurd hbad hc⟩
    case isFalse hok =>
      exact ⟨fun hc => absurd hc hok, fun _ => ⟨hst, rfl, rfl⟩⟩

/-- C5 (witness): `setAuctionPrices` on `exState1` with `max = 5 ≤ min =
10` cancels the auction. -/
theorem claim_c5_witness :
    setAuctionPrices exState1 5 10 =
      some ⟨⟨.CANCELLED, 10000, 2 ^ 64, 5, 10, INT128_MAX, 1000, 2000, 0, 0, 0,
        0, 1⟩, [], []⟩ ∧
    (⟨⟨.CANCELLED, 10000, 2 ^ 64, 5, 10, INT128_MAX, 1000, 2000, 0, 0, 0, 0, 1⟩,
      [], []⟩ : AuctionState).auction.status = .CANCELLED :=
  ⟨by decide,
   ((claim_c5_setAuctionPrices exState1 _ 5 10 (by decide)).1
     (by decide)).1⟩

/-- C9 (counterexample).  `setPerformanceFee64x64` only checks
`newFee < 1`: the negative value `-1.0` (64.64) is accepted, so the setter
does *not* enforce the claimed lower bound of the interval `[0, 1)`. -/
theorem claim_c9_counterexample :
    setPerformanceFee64x64 ⟨0, 0, false, 0, 0, 0, 0, 0⟩ (-(2 ^ 64)) =
      some ⟨0, 0, false, 0, 0, -(2 ^ 64), 0, 0⟩ ∧
    ¬((0 : ℤ) ≤ -(2 ^ 64)) := by decide

/-- C9 (amended).  `setPerformanceFee64x64` and `setWithdrawalFee64x64`
accept a new fee iff it is strictly below one (64.64 `2 ^ 64`); there is no
lower-bound check, so negative fees are accepted, and after any successful
set the stored fee equals the argument and is `< 1` (but not necessarily
`≥ 0`). -/
theorem claim_c9_amended (v : VaultState) (f : ℤ) :
    ((setPerformanceFee64x64 v f).isSome ↔ f < 2 ^ 64) ∧
    ((setWithdrawalFee64x64 v f).isSome ↔ f < 2 ^ 64) ∧
    (∀ v', setPerformanceFee64x64 v f = some v' →
      v'.performanceFee64x64 = f ∧ v'.performanceFee64x64 < 2 ^ 64) ∧
    (∀ v', setWithdrawalFee64x64 v f = some v' →
      v'.withdrawalFee64x64 = f ∧ v'.withdrawalFee64x64 < 2 ^ 64) := by
  refine ⟨?_, ?_, ?_, ?_⟩
  · unfold setPerformanceFee64x64; split <;> simp_all
  · unfold setWithdrawalFee64x64; split <;> simp_all
  · intro v' h
    unfold setPerformanceFee64x64 at h
    split at h
    case isFalse => exact absurd h (by simp)
    case isTrue hf =>
      rw [Option.some.injEq] at h; subst h; exact ⟨rfl, hf⟩
  · intro v' h
    unfold setWithdrawalFee64x64 at h
    split at h
    case isFalse => exact absurd h (by simp)
    case isTrue hf =>
      rw [Option.some.injEq] at h; subst h; exact ⟨rfl, hf⟩

/-- C9 (witness): a fee of `0.5` (64.64) is accepted and stored. -/
theorem claim_c9_witness :
    setPerformanceFee64x64 ⟨0, 0, false, 0, 0, 0, 0, 0⟩ (2 ^ 63) =
      some ⟨0, 0, false, 0, 0, 2 ^ 63, 0, 0⟩ ∧
    ((2 ^ 63 : ℤ) = 2 ^ 63 ∧ (2 ^ 63 : ℤ) < 2 ^ 64) :=
  ⟨by decide,
   (claim_c9_amended ⟨0, 0, false, 0, 0, 0, 0, 0⟩ (2 ^ 63)).2.2.1
     ⟨0, 0, false, 0, 0, 2 ^ 63, 0, 0⟩ (by decide)⟩

/-- C10.  After any successful `cancelLimitOrder`, the epoch is removed from
the cancelling buyer's epoch set (`getEpochsByBuyer` no longer contains it)
— unconditionally, in particular even when the buyer still has other live
orders in the same epoch's order book (see the witness). -/
theorem claim_c10_cancel_removes_epoch (s s' : AuctionState)
    (sender id dc now : ℕ)
    (h : cancelLimitOrder s sender id dc now = some s') :
    sender ∉ s'.buyersWithEpoch := by
  unfold cancelLimitOrder at h
  split at h
  case isFalse => exact absurd h (by simp)
  case isTrue =>
    split at h
    case h_1 => exact absurd h (by simp)
    case h_2 o heq =>
      split at h
      case isFalse => exact absurd h (by simp)
      case isTrue hbuyer =>
        rw [Option.some.injEq] at h
        subst h
        intro hmem
        rw [List.mem_filter] at hmem
        rcases hmem with ⟨_, hne⟩
        simp only [decide_eq_true_eq] at hne
        exact hne hbuyer.symm

/-- C10 (witness): buyer 7 has two live limit orders; cancelling order 1
removes the epoch from buyer 7's epoch set although order 2 is still live in
the book. -/
theorem claim_c10_witness :
    cancelLimitOrder
        ⟨⟨.INITIALIZED, 10000, 2 ^ 64, 0, 0, 0, 1000, 2000, 0, 0, 0, 0, 1⟩,
         [⟨1, 10, 5, 7⟩, ⟨2, 9, 5, 7⟩], [7]⟩ 7 1 0 500 =
      some ⟨⟨.INITIALIZED, 10000, 2 ^ 64, 0, 0, 0, 1000, 2000, 0, 0, 0, 0, 1⟩,
        [⟨2, 9, 5, 7⟩], []⟩ ∧
    (7 : ℕ) ∉
      (⟨⟨.INITIALIZED, 10000, 2 ^ 64, 0, 0, 0, 1000, 2000, 0, 0, 0, 0, 1⟩,
        [⟨2, 9, 5, 7⟩], ([] : List ℕ)⟩ : AuctionState).buyersWithEpoch ∧
    (⟨2, 9, 5, 7⟩ : Order) ∈
      (⟨⟨.INITIALIZED, 10000, 2 ^ 64, 0, 0, 0, 1000, 2000, 0, 0, 0, 0, 1⟩,
        [⟨2, 9, 5, 7⟩], ([] : List ℕ)⟩ : AuctionState).book :=
  ⟨by decide,
   claim_c10_cancel_removes_epoch
     ⟨⟨.INITIALIZED, 10000, 2 ^ 64, 0, 0, 0, 1000, 2000, 0, 0, 0, 0, 1⟩,
      [⟨1, 10, 5, 7⟩, ⟨2, 9, 5, 7⟩], [7]⟩
     ⟨⟨.INITIALIZED, 10000, 2 ^ 64, 0, 0, 0, 1000, 2000, 0, 0, 0, 0, 1⟩,
      [⟨2, 9, 5, 7⟩], []⟩ 7 1 0 500 (by decide),
   by decide⟩

/-- C7.  The `withdrawalsLocked` modifier guarding the vault's
`withdraw`/`redeem` fails (with "auction has not been processed",
`AuctionNotProcessed`) iff the current time is at or past the stored
`startTime` and `auctionProcessed` is false; `initializeAuction` stamps
`startTime = friday(now) + startOffset` and resets `auctionProcessed`;
`processAuction` sets `auctionProcessed`, so the lock window is exactly
`[startTime, processAuction)`. -/
theorem claim_c7_withdrawal_lock :
    (∀ (v : VaultState) (now : ℕ),
      withdrawalsLockedPasses v now = false ↔
        v.startTime ≤ now ∧ v.auctionProcessed = false) ∧
    (∀ (v : VaultState) (k : ℤ) (ltid now : ℕ),
      (vaultInitializeAuction v k ltid now).1.auctionProcessed = false ∧
      (vaultInitializeAuction v k ltid now).1.startTime =
        getFriday now + v.startOffset) ∧
    (∀ (v : VaultState) (ta : ℕ),
      (vaultProcessAuction v ta).auctionProcessed = true) := by
  refine ⟨fun v now => ?_, fun v k ltid now => ⟨rfl, rfl⟩, fun v ta => rfl⟩
  unfold withdrawalsLockedPasses
  split
  case isTrue hst => constructor
                     · intro hp; exact ⟨hst, hp⟩
                     · intro hp; exact hp.2
  case isFalse hst => simp [hst]

/-- C7 (witness): with `startTime = 3`, unprocessed, at time 5 the lock
check fails. -/
theorem claim_c7_witness :
    withdrawalsLockedPasses ⟨0, 3, false, 0, 0, 0, 0, 0⟩ 5 = false :=
  (claim_c7_withdrawal_lock.1 ⟨0, 3, false, 0, 0, 0, 0, 0⟩ 5).mpr
    ⟨by decide, rfl⟩

/-- C1.  For every order book, clearing price and buyer, whenever the
withdraw/previewWithdraw traversal succeeds, it conserves value: the refund
plus the sum — over the buyer's orders — of `clearingPrice × min(size,
remainder)` on filled portions (0 on unfilled/cancelled portions) equals the
sum of `price × size` the buyer paid in; consequently refund plus the fill
valued at the clearing price never exceeds what the buyer paid. -/
theorem claim_c1_withdraw_value_conservation (book : List Order)
    (lastPrice64x64 : ℤ) (T buyer : ℕ) (pw : PW)
    (h : previewWithdraw book lastPrice64x64 T buyer = some pw) :
    pw.refund + claimCostSum lastPrice64x64 T buyer book 0 =
      claimPaidSum buyer book ∧
    pw.refund + claimCostSum lastPrice64x64 T buyer book 0 ≤
      claimPaidSum buyer book := by
  have hc := previewWithdraw_conservation lastPrice64x64 T buyer book
    ⟨0, 0, 0⟩ pw h
  simp only at hc
  exact ⟨by simpa using hc, le_of_eq (by simpa using hc)⟩

/-- C1 (witness): clearing price 2, 100 contracts available; buyer 7 pays
180 + 120 = 300, is filled 60 + 40 = 100 and refunded 60 + 40 = 100, and
`refund + Σ cost = 100 + (120 + 80) = 300 = Σ paid`. -/
theorem claim_c1_witness :
    previewWithdraw [⟨1, 3 * 2 ^ 64, 60, 7⟩, ⟨2, 2 * 2 ^ 64, 60, 7⟩]
        (2 * 2 ^ 64) 100 7 = some ⟨100, 100, 120⟩ ∧
    100 + claimCostSum (2 * 2 ^ 64) 100 7
        [⟨1, 3 * 2 ^ 64, 60, 7⟩, ⟨2, 2 * 2 ^ 64, 60, 7⟩] 0 =
      claimPaidSum 7 [⟨1, 3 * 2 ^ 64, 60, 7⟩, ⟨2, 2 * 2 ^ 64, 60, 7⟩] :=
  ⟨by rfl,
   (claim_c1_withdraw_value_conservation
     [⟨1, 3 * 2 ^ 64, 60, 7⟩, ⟨2, 2 * 2 ^ 64, 60, 7⟩] (2 * 2 ^ 64) 100 7
     ⟨100, 100, 120⟩ (by rfl)).1⟩

/-- C2.  For every vault view with `totalAssets = totalCollateral +
totalShortAsCollateral > 0`, `_calculateDistributions` returns the
collateral portion `totalCollateral × assetAmount / totalAssets` and the
short portion `totalShortAsCollateral × assetAmount / totalAssets` (64.64
ratios), the latter converted back into short contracts with the
collateral-to-contracts conversion. -/
theorem claim_c2_withdraw_distribution (isCall : Bool) (bd : ℕ) (k : ℤ)
    (tc tsc amt : ℕ) (h : 0 < tc + tsc) :
    calculateDistributions isCall bd k tc tsc amt =
      specWithdrawDistribution isCall bd k tc tsc amt := by
  have key : ∀ c : ℕ, calculateDistributionAmount amt c (tc + tsc) =
      mulu (divu c (tc + tsc)) amt := by
    intro c
    simp only [calculateDistributionAmount]
    by_cases hc : 0 < c
    · simp only [if_pos hc]
      split
      · rfl
      · rename_i hr
        have h0 : divu c (tc + tsc) = 0 :=
          le_antisymm (not_lt.mp hr) (by unfold divu; exact Int.natCast_nonneg _)
        rw [h0]
        simp [mulu]
    · simp only [if_neg hc]
      have hc0 : c = 0 := by omega
      subst hc0
      have h0 : divu 0 (tc + tsc) = 0 := by simp [divu]
      rw [h0]
      simp [mulu]
  simp only [calculateDistributions, specWithdrawDistribution]
  rw [key, key]

/-- C2 (witness): a call vault with collateral 100, short-as-collateral 50,
withdrawing 30 assets. -/
theorem claim_c2_witness :
    (0 : ℕ) < 100 + 50 ∧
    calculateDistributions true 18 (2000 * 2 ^ 64) 100 50 30 =
      specWithdrawDistribution true 18 (2000 * 2 ^ 64) 100 50 30 :=
  ⟨by decide,
   claim_c2_withdraw_distribution true 18 (2000 * 2 ^ 64) 100 50 30 (by decide)⟩

/-- C3 (counterexample).  `totalContractsSold` is *not* monotonically
non-decreasing across the order-processing step run on cancel: from the
reachable state `exState3` (one live order of size 100,
`totalContractsSold = 100`), cancelling the order at time 1600 reruns
`_processOrders` over the now-empty book and resets `totalContractsSold`
from 100 to 0. -/
theorem claim_c3_counterexample :
    Reachable exState3 ∧
    cancelLimitOrder exState3 7 1 200 1600 = some exState4 ∧
    exState4.auction.totalContractsSold <
      exState3.auction.totalContractsSold := by
  refine ⟨?_, by decide, by decide⟩
  have h1 : AStep AuctionState.init exState1 :=
    AStep.initOp _ _ ⟨10000, 2 ^ 64, 1, 1000, 2000⟩ 500 (by decide)
  have h2 : AStep exState1 exState2 :=
    AStep.setPrices _ _ (100 * 2 ^ 64) (50 * 2 ^ 64) (by decide)
  have h3 : AStep exState2 exState3 :=
    AStep.addLimit _ _ 1 (80 * 2 ^ 64) 100 7 1 200 1500 (by decide)
  exact Relation.ReflTransGen.tail
    (Relation.ReflTransGen.tail (Relation.ReflTransGen.single h1) h2) h3

/-- C3 (amended).  In every reachable auction state
`totalContractsSold ≤ totalContracts`; and `totalContractsSold` is
non-decreasing across the order-processing step run on *add* (the book gains
an order and the clearing price does not increase, the book being
price-sorted) — but a cancel, which removes an order before rerunning the
step, can decrease it (see the counterexample). -/
theorem claim_c3_amended :
    (∀ s : AuctionState, Reachable s →
      s.auction.totalContractsSold ≤ s.auction.totalContracts) ∧
    (∀ (T : ℕ) (p p' : ℤ) (book : List Order) (o : Order),
      SortedBook book → p' ≤ p →
      (processOrdersLoop p T book 0 0).1 ≤
        (processOrdersLoop p' T (insertOrder o book) 0 0).1) := by
  constructor
  · exact fun s h => (auctionInv_reachable h).1
  · intro T p p' book o hs hp
    have sA := specFillLoop_sold T
      (book.filter (fun x => decide (p ≤ x.price64x64))) 0 0 (Nat.zero_le T)
    have sB := specFillLoop_sold T
      ((insertOrder o book).filter (fun x => decide (p' ≤ x.price64x64))) 0 0
      (Nat.zero_le T)
    rw [processOrdersLoop_eq_specFillLoop, processOrdersLoop_eq_specFillLoop,
      qualifyingPrefix_eq_filter p hs,
      qualifyingPrefix_eq_filter p' (sortedBook_insertOrder o hs), sA, sB]
    have e1 : sumSizes ((insertOrder o book).filter
          (fun x => decide (p' ≤ x.price64x64))) =
        sumSizes ((o :: book).filter (fun x => decide (p' ≤ x.price64x64))) :=
      sumSizes_perm ((insertOrder_perm o book).filter _)
    have e2 := sumSizes_filter_mono hp book
    have e3 : sumSizes (book.filter (fun x => decide (p' ≤ x.price64x64))) ≤
        sumSizes ((o :: book).filter (fun x => decide (p' ≤ x.price64x64))) := by
      rw [List.filter_cons]
      split
      · simp only [sumSizes, List.map_cons, List.sum_cons]
        omega
      · exact le_refl _
    omega

/-- C3 (witness): the invariant at the epoch's start, and add-monotonicity
on a one-order book (clearing price 5 → 4, inserting an order of size 4:
sold goes from 3 to 7). -/
theorem claim_c3_witness :
    AuctionState.init.auction.totalContractsSold ≤
      AuctionState.init.auction.totalContracts ∧
    (processOrdersLoop 5 10 [⟨1, 6, 3, 7⟩] 0 0).1 ≤
      (processOrdersLoop 4 10 (insertOrder ⟨2, 5, 4, 8⟩ [⟨1, 6, 3, 7⟩]) 0 0).1 :=
  ⟨claim_c3_amended.1 AuctionState.init Relation.ReflTransGen.refl,
   claim_c3_amended.2 10 5 4 [⟨1, 6, 3, 7⟩] ⟨2, 5, 4, 8⟩
     (by simp [SortedBook]) (by decide)⟩

/-- C4 (counterexample).  Premium transfer is *not* at-most-once: on the
reachable finalized state `exFinalizedEmpty` (no contracts sold, so the
premium is `lastPrice × 0 = 0`), `transferPremium` succeeds and leaves the
state unchanged, so a second `transferPremium` succeeds again. -/
theorem claim_c4_counterexample :
    Reachable exFinalizedEmpty ∧
    transferPremium exFinalizedEmpty = some (exFinalizedEmpty, 0) ∧
    ((transferPremium exFinalizedEmpty).bind fun r => transferPremium r.1) =
      some (exFinalizedEmpty, 0) := by
  refine ⟨?_, by decide, by decide⟩
  have h1 : AStep AuctionState.init exState1 :=
    AStep.initOp _ _ ⟨10000, 2 ^ 64, 1, 1000, 2000⟩ 500 (by decide)
  have h2 : AStep exState1 exState2 :=
    AStep.setPrices _ _ (100 * 2 ^ 64) (50 * 2 ^ 64) (by decide)
  have h3 : AStep exState2 exFinalizedEmpty := by
    have h := AStep.finalize exState2 200 2500
    rwa [show finalizeAuctionExt exState2 200 2500 = exFinalizedEmpty from
      by decide] at h
  exact Relation.ReflTransGen.tail
    (Relation.ReflTransGen.tail (Relation.ReflTransGen.single h1) h2) h3

/-- C4 (amended).  `transferPremium` succeeds iff the auction is `FINALIZED`
with `totalPremiums = 0`; on success it sets and transfers
`lastPrice × totalContractsSold`, and — provided that amount is nonzero — it
can never succeed again (a zero premium allows repeated zero-value
transfers, see the counterexample); in every reachable Finalized/Processed
state `totalPremiums` is `0` or `lastPrice × totalContractsSold`. -/
theorem claim_c4_amended :
    (∀ s : AuctionState, (transferPremium s).isSome ↔
      s.auction.status = .FINALIZED ∧ s.auction.totalPremiums = 0) ∧
    (∀ (s s' : AuctionState) (p : ℕ), transferPremium s = some (s', p) →
      p = mulu s.auction.lastPrice64x64 s.auction.totalContractsSold ∧
      s'.auction.totalPremiums = p ∧
      (0 < p → transferPremium s' = none)) ∧
    (∀ s : AuctionState, Reachable s →
      s.auction.status = .FINALIZED ∨ s.auction.status = .PROCESSED →
      s.auction.totalPremiums = 0 ∨
        s.auction.totalPremiums =
          mulu s.auction.lastPrice64x64 s.auction.totalContractsSold) := by
  refine ⟨fun s => ?_, fun s s' p h => ?_,
    fun s hr hst => (auctionInv_reachable hr).2.1 hst⟩
  · unfold transferPremium
    split
    case isTrue hc => simpa using hc
    case isFalse hc => simpa using hc
  · unfold transferPremium at h
    split at h
    case isFalse => exact absurd h (by simp)
    case isTrue hc =>
      simp only [Option.some.injEq, Prod.mk.injEq] at h
      obtain ⟨hs', hp⟩ := h
      subst hs'
      refine ⟨hp.symm, hp, fun hpos => ?_⟩
      unfold transferPremium
      rw [if_neg]
      intro hcc
      have h2 := hcc.2
      simp only at h2
      omega

/-- C4 (witness): a finalized auction that sold 10 contracts at clearing
price 2 transfers a premium of 20 once; the second transfer fails. -/
theorem claim_c4_witness :
    transferPremium exFinalizedSold = some (exFinalizedSoldPaid, 20) ∧
    transferPremium exFinalizedSoldPaid = none :=
  ⟨by decide,
   (claim_c4_amended.2.1 exFinalizedSold exFinalizedSoldPaid 20
     (by decide)).2.2 (by decide)⟩

end Knox
